import Mathlib

/-!
# Alert sender: label sanitisation and notifier configuration

A shallow embedding of `pkg/services/ngalert/sender/sender.go`:

* `isValidLabelName`, `sanitizeLabelName`, `sortedKeys`, `sanitizeLabelSet`
  (the label/annotation sanitiser), and
* `buildNotifierConfig` (the translation of the admin configuration into one
  Alertmanager configuration per URL).

Go strings are sequences of bytes, so a string is a `List Nat` of byte values.
The Go constructs the source relies on are modelled next to it: `for i, b :=
range s` (UTF-8 decoding, `U+FFFD` of width 1 for a malformed byte),
`unicode.IsSpace`, `strings.Fields`, `strings.Join`, the `%x` verb of `fmt`,
`sort.Strings` and `md5.Sum`.  Logging has no effect on the results and is
left out.
-/

namespace Sender

/-! ## Go strings -/

/-- A Go string: its bytes, in order. -/
abbrev GoString := List Nat

/-- The rune `utf8.RuneError` (U+FFFD), produced for malformed UTF-8. -/
def RuneError : Nat := 0xFFFD

/-- The constant `unicode.MaxASCII`. -/
def MaxASCII : Nat := 0x7F

/-- A UTF-8 continuation byte, `0x80..0xBF`. -/
def isCont (b : Nat) : Bool := 0x80 ≤ b && b ≤ 0xBF

/-- Lower bound accepted for the second byte after the lead byte `s0`. -/
def secondLo (s0 : Nat) : Nat :=
  if s0 = 0xE0 then 0xA0 else if s0 = 0xF0 then 0x90 else 0x80

/-- Upper bound accepted for the second byte after the lead byte `s0`. -/
def secondHi (s0 : Nat) : Nat :=
  if s0 = 0xED then 0x9F else if s0 = 0xF4 then 0x8F else 0xBF

/-- The first rune of a string and its width in bytes, as `utf8.DecodeRuneInString`
computes them: a malformed or truncated sequence gives `(RuneError, 1)`, the
empty string `(RuneError, 0)`. -/
def decodeRune : GoString → Nat × Nat
  | [] => (RuneError, 0)
  | s0 :: t =>
    if s0 < 0x80 then (s0, 1)
    else if s0 < 0xC2 then (RuneError, 1)
    else if s0 < 0xE0 then
      match t with
      | s1 :: _ =>
        if isCont s1 then (s0 % 32 * 64 + s1 % 64, 2) else (RuneError, 1)
      | _ => (RuneError, 1)
    else if s0 < 0xF0 then
      match t with
      | s1 :: s2 :: _ =>
        if secondLo s0 ≤ s1 && s1 ≤ secondHi s0 && isCont s2 then
          (s0 % 16 * 4096 + s1 % 64 * 64 + s2 % 64, 3)
        else (RuneError, 1)
      | _ => (RuneError, 1)
    else if s0 < 0xF5 then
      match t with
      | s1 :: s2 :: s3 :: _ =>
        if secondLo s0 ≤ s1 && s1 ≤ secondHi s0 && isCont s2 && isCont s3 then
          (s0 % 8 * 262144 + s1 % 64 * 4096 + s2 % 64 * 64 + s3 % 64, 4)
        else (RuneError, 1)
      | _ => (RuneError, 1)
    else (RuneError, 1)

/-- The runes of a string, each with the bytes it was decoded from
(`fuel` bounds the number of runes; the length of the string is enough). -/
def decodeAll : Nat → GoString → List (Nat × GoString)
  | 0, _ => []
  | _ + 1, [] => []
  | n + 1, s0 :: t =>
    ((decodeRune (s0 :: t)).1, (s0 :: t).take (decodeRune (s0 :: t)).2) ::
      decodeAll n ((s0 :: t).drop (decodeRune (s0 :: t)).2)

/-- The runes of a string with their bytes. -/
def runes (s : GoString) : List (Nat × GoString) := decodeAll s.length s

/-- Pairs every rune with the byte offset at which it starts. -/
def withOffsets : Nat → List (Nat × GoString) → List (Nat × Nat)
  | _, [] => []
  | i, (r, bs) :: t => (i, r) :: withOffsets (i + bs.length) t

/-- What `for i, b := range s` iterates over: byte offset and rune. -/
def rangeString (s : GoString) : List (Nat × Nat) := withOffsets 0 (runes s)

/-- The function `unicode.IsSpace`. -/
def isSpace (r : Nat) : Bool :=
  if r ≤ 0xFF then
    r == 0x09 || r == 0x0A || r == 0x0B || r == 0x0C || r == 0x0D || r == 0x20 ||
      r == 0x85 || r == 0xA0
  else
    r == 0x1680 || (0x2000 ≤ r && r ≤ 0x200A) || r == 0x2028 || r == 0x2029 ||
      r == 0x202F || r == 0x205F || r == 0x3000

/-- The loop of `strings.Fields` over the decoded runes; `cur` is the field
being read. -/
def fieldsAux : List (Nat × GoString) → GoString → List GoString
  | [], cur => if cur.isEmpty then [] else [cur]
  | (r, bs) :: t, cur =>
    if isSpace r then
      if cur.isEmpty then fieldsAux t [] else cur :: fieldsAux t []
    else fieldsAux t (cur ++ bs)

/-- The function `strings.Fields`: the maximal runs of non-space runes. -/
def Fields (s : GoString) : List GoString := fieldsAux (runes s) []

/-- The function `strings.Join`. -/
def Join : List GoString → GoString → GoString
  | [], _ => []
  | [x], _ => x
  | x :: y :: t, sep => x ++ sep ++ Join (y :: t) sep

/-- One lower-case hexadecimal digit, as an ASCII byte. -/
def hexDigit (d : Nat) : Nat := if d < 10 then 48 + d else 87 + d

/-- Hexadecimal digits of `n`, most significant first, in front of `acc`. -/
def hexAux : Nat → Nat → GoString → GoString
  | 0, _, acc => acc
  | fuel + 1, n, acc =>
    if n / 16 = 0 then hexDigit (n % 16) :: acc
    else hexAux fuel (n / 16) (hexDigit (n % 16) :: acc)

/-- The text `fmt` writes for `%x` of a rune (a rune is below `2^31`, so eight
digits are enough). -/
def fmtHex (n : Nat) : GoString := hexAux 8 n []

/-- The bytes `WriteRune` appends for the rune `r` (its UTF-8 encoding). -/
def encodeRune (r : Nat) : GoString :=
  if r < 0x80 then [r]
  else if r < 0x800 then [0xC0 + r / 64, 0x80 + r % 64]
  else if (0xD800 ≤ r && r ≤ 0xDFFF) || 0x10FFFF < r then [0xEF, 0xBF, 0xBD]
  else if r < 0x10000 then [0xE0 + r / 4096, 0x80 + r / 64 % 64, 0x80 + r % 64]
  else [0xF0 + r / 262144, 0x80 + r / 4096 % 64, 0x80 + r / 64 % 64, 0x80 + r % 64]

/-! ## Label names -/

/-- The test of `LabelName.IsValid` on the rune `b` at byte offset `i`:
`(b >= 'a' && b <= 'z') || (b >= 'A' && b <= 'Z') || b == '_' ||
(b >= '0' && b <= '9' && i > 0)`. -/
def allowedRune (i b : Nat) : Bool :=
  (97 ≤ b && b ≤ 122) || (65 ≤ b && b ≤ 90) || b == 95 || (48 ≤ b && b ≤ 57 && 0 < i)

/-- True iff the label name matches `^[a-zA-Z_][a-zA-Z0-9_]*$`. -/
def isValidLabelName (ln : GoString) : Bool :=
  if ln.length = 0 then false
  else (rangeString ln).all (fun p => allowedRune p.1 p.2)

/-- What one iteration of the replacement loop writes to the buffer. -/
def replaceRune (i b : Nat) : GoString :=
  if allowedRune i b then encodeRune b
  else if b ≤ MaxASCII then encodeRune 95
  else fmtHex b

/-- The two errors of `sanitizeLabelName`. -/
inductive SanitizeError where
  /-- The message "label name cannot be empty". -/
  | emptyName
  /-- The message "label name only contains invalid chars". -/
  | onlyInvalidChars
deriving DecidableEq, Repr

/-- Fixes a label name so that it is compatible with the Alertmanager
character restrictions. -/
def sanitizeLabelName (name : GoString) : Except SanitizeError GoString :=
  if name.length = 0 then .error .emptyName
  else if isValidLabelName name then .ok name
  else
    let sanitized := Join (Fields name) []
    let buf := (rangeString sanitized).foldl (fun buf p => buf ++ replaceRune p.1 p.2) []
    if buf.length = 0 then .error .onlyInvalidChars else .ok buf

/-! ## The hash of the collision suffix

The function `md5.Sum` of the Go standard library, after RFC 1321, on 32-bit
words kept as natural numbers below `2^32`. -/

namespace MD5

/-- Addition modulo `2^32`. -/
def add32 (a b : Nat) : Nat := (a + b) % 4294967296

/-- Bitwise complement of a 32-bit word. -/
def not32 (a : Nat) : Nat := a ^^^ 4294967295

/-- Rotation of a 32-bit word to the left by `s` bits. -/
def rotl32 (x s : Nat) : Nat := ((x <<< s) ||| (x >>> (32 - s))) % 4294967296

/-- The table of `floor (2^32 * |sin (i + 1)|)`. -/
def K : List Nat := [
  0xd76aa478, 0xe8c7b756, 0x242070db, 0xc1bdceee, 0xf57c0faf, 0x4787c62a, 0xa8304613, 0xfd469501,
  0x698098d8, 0x8b44f7af, 0xffff5bb1, 0x895cd7be, 0x6b901122, 0xfd987193, 0xa679438e, 0x49b40821,
  0xf61e2562, 0xc040b340, 0x265e5a51, 0xe9b6c7aa, 0xd62f105d, 0x02441453, 0xd8a1e681, 0xe7d3fbc8,
  0x21e1cde6, 0xc33707d6, 0xf4d50d87, 0x455a14ed, 0xa9e3e905, 0xfcefa3f8, 0x676f02d9, 0x8d2a4c8a,
  0xfffa3942, 0x8771f681, 0x6d9d6122, 0xfde5380c, 0xa4beea44, 0x4bdecfa9, 0xf6bb4b60, 0xbebfbc70,
  0x289b7ec6, 0xeaa127fa, 0xd4ef3085, 0x04881d05, 0xd9d4d039, 0xe6db99e5, 0x1fa27cf8, 0xc4ac5665,
  0xf4292244, 0x432aff97, 0xab9423a7, 0xfc93a039, 0x655b59c3, 0x8f0ccc92, 0xffeff47d, 0x85845dd1,
  0x6fa87e4f, 0xfe2ce6e0, 0xa3014314, 0x4e0811a1, 0xf7537e82, 0xbd3af235, 0x2ad7d2bb, 0xeb86d391]

/-- The per-round rotation amounts. -/
def S : List Nat := [
  7, 12, 17, 22, 7, 12, 17, 22, 7, 12, 17, 22, 7, 12, 17, 22,
  5, 9, 14, 20, 5, 9, 14, 20, 5, 9, 14, 20, 5, 9, 14, 20,
  4, 11, 16, 23, 4, 11, 16, 23, 4, 11, 16, 23, 4, 11, 16, 23,
  6, 10, 15, 21, 6, 10, 15, 21, 6, 10, 15, 21, 6, 10, 15, 21]

/-- The four chaining words. -/
structure State where
  /-- Word A. -/
  a : Nat
  /-- Word B. -/
  b : Nat
  /-- Word C. -/
  c : Nat
  /-- Word D. -/
  d : Nat
deriving DecidableEq, Repr

/-- The initial chaining value. -/
def init : State := ⟨0x67452301, 0xefcdab89, 0x98badcfe, 0x10325476⟩

/-- Operation `i` of the 64 operations on a block with message words `M`. -/
def step (M : List Nat) (st : State) (i : Nat) : State :=
  let f :=
    if i < 16 then (st.b &&& st.c) ||| (not32 st.b &&& st.d)
    else if i < 32 then (st.d &&& st.b) ||| (not32 st.d &&& st.c)
    else if i < 48 then st.b ^^^ st.c ^^^ st.d
    else st.c ^^^ (st.b ||| not32 st.d)
  let g :=
    if i < 16 then i
    else if i < 32 then (5 * i + 1) % 16
    else if i < 48 then (3 * i + 5) % 16
    else (7 * i) % 16
  let f2 := add32 (add32 (add32 f st.a) (K.getD i 0)) (M.getD g 0)
  ⟨st.d, add32 st.b (rotl32 f2 (S.getD i 0)), st.b, st.c⟩

/-- The little-endian 32-bit word at the head of `bs`. -/
def word (bs : List Nat) : Nat :=
  bs.getD 0 0 + 256 * bs.getD 1 0 + 65536 * bs.getD 2 0 + 16777216 * bs.getD 3 0

/-- The sixteen message words of a 64-byte block. -/
def words (blk : List Nat) : List Nat :=
  (List.range 16).map (fun j => word (blk.drop (4 * j)))

/-- Processes one 64-byte block. -/
def block (st : State) (blk : List Nat) : State :=
  let r := (List.range 64).foldl (step (words blk)) st
  ⟨add32 st.a r.a, add32 st.b r.b, add32 st.c r.c, add32 st.d r.d⟩

/-- The `n` low bytes of `x`, least significant first. -/
def le (n : Nat) (x : Nat) : List Nat :=
  (List.range n).map (fun j => (x >>> (8 * j)) % 256)

/-- The padded message: a `0x80` byte, zeros up to 56 modulo 64, and the bit
length on eight bytes. -/
def pad (msg : List Nat) : List Nat :=
  msg ++ [0x80] ++ List.replicate ((119 - msg.length % 64) % 64) 0 ++
    le 8 (8 * msg.length % 18446744073709551616)

/-- Cuts a byte sequence into 64-byte blocks. -/
def blocks : Nat → List Nat → List (List Nat)
  | 0, _ => []
  | n + 1, s => if s.isEmpty then [] else s.take 64 :: blocks n (s.drop 64)

/-- The 16-byte digest `md5.Sum(msg)`. -/
def sum (msg : List Nat) : List Nat :=
  let p := pad msg
  let r := (blocks p.length p).foldl block init
  le 4 r.a ++ le 4 r.b ++ le 4 r.c ++ le 4 r.d

end MD5

/-! ## Label sets -/

/-- A label of the notifier (`labels.Label`). -/
structure Label where
  /-- The label name. -/
  Name : GoString
  /-- The label value. -/
  Value : GoString
deriving DecidableEq, Repr

/-- A `models.LabelSet` (a `map[string]string`), as the list of its entries in
the order in which the map happens to enumerate them; the keys of a map are
pairwise distinct. -/
abbrev LabelSet := List (GoString × GoString)

/-- The keys of a label set, in enumeration order. -/
def LabelSet.keys (lbls : LabelSet) : List GoString := lbls.map Prod.fst

/-- The map access `lbls[k]`: the value stored under `k`, the empty string
when there is none. -/
def LabelSet.get : LabelSet → GoString → GoString
  | [], _ => []
  | (k0, v) :: t, k => if k = k0 then v else LabelSet.get t k

/-- The function `sort.Strings`: ascending byte-wise lexicographic order. -/
def sortStrings (xs : List GoString) : List GoString :=
  xs.insertionSort (· ≤ ·)

/-- The keys of the map, sorted. -/
def sortedKeys (m : LabelSet) : List GoString := sortStrings m.keys

/-- Two lower-case hexadecimal digits for every byte: `%x` of a byte string. -/
def hexBytes : List Nat → GoString
  | [] => []
  | b :: t => hexDigit (b / 16) :: hexDigit (b % 16) :: hexBytes t

/-- The suffix `fmt.Sprintf("_%.3x", md5.Sum([]byte(k)))`: an underscore and
the first three bytes of the digest in hexadecimal. -/
def hashSuffix (k : GoString) : GoString := 95 :: hexBytes ((MD5.sum k).take 3)

/-- The variables of the loop of `sanitizeLabelSet`. -/
structure LoopState where
  /-- The labels appended so far. -/
  ls : List Label
  /-- The names used so far. -/
  set : List GoString
deriving DecidableEq, Repr

/-- One iteration of the loop of `sanitizeLabelSet`, for the key `k`. -/
def sanitizeStep (lbls : LabelSet) (st : LoopState) (k : GoString) : LoopState :=
  match sanitizeLabelName k with
  | .error _ => st
  | .ok sanitizedLabelName =>
    let finalName :=
      if sanitizedLabelName ∈ st.set then sanitizedLabelName ++ hashSuffix k
      else sanitizedLabelName
    ⟨st.ls ++ [⟨finalName, lbls.get k⟩], finalName :: st.set⟩

/-- The loop of `sanitizeLabelSet` over the keys `ks`, from the state `st`. -/
def sanitizeKeys (lbls : LabelSet) (ks : List GoString) (st : LoopState) : LoopState :=
  ks.foldl (sanitizeStep lbls) st

/-- Sanitizes all keys of a label set; a name that collides after
sanitization gets a short hash of the original key as a suffix. -/
def sanitizeLabelSet (lbls : LabelSet) : List Label :=
  (sanitizeKeys lbls (sortedKeys lbls) ⟨[], []⟩).ls

/-- The bytes of an ASCII literal. -/
def ascii (s : String) : GoString := s.toList.map Char.toNat

/-! ## Notifier configuration -/

/-- The user information of a URL (`url.Userinfo`). -/
structure Userinfo where
  /-- The user name. -/
  username : String
  /-- The password. -/
  password : String
  /-- Whether the URL has a password. -/
  passwordSet : Bool
deriving DecidableEq, Repr

/-- The fields of `url.URL` the sender reads. -/
structure URL where
  /-- The scheme. -/
  Scheme : String
  /-- The user information, when present. -/
  User : Option Userinfo
  /-- The host, `host` or `host:port`. -/
  Host : String
  /-- The path. -/
  Path : String
deriving DecidableEq, Repr

/-- Basic authentication credentials (`common_config.BasicAuth`). -/
structure BasicAuth where
  /-- The user name. -/
  Username : String
  /-- The password, empty when none was set. -/
  Password : String
deriving DecidableEq, Repr

/-- A target group (`targetgroup.Group`): its targets, each a label set. -/
structure Group where
  /-- The targets. -/
  Targets : List (List (String × String))
deriving DecidableEq, Repr

/-- The fields of `config.AlertmanagerConfig` the sender sets. -/
structure AlertmanagerConfig where
  /-- The API version. -/
  APIVersion : String
  /-- The scheme. -/
  Scheme : String
  /-- The path prefix. -/
  PathPrefix : String
  /-- The timeout, in nanoseconds. -/
  Timeout : Nat
  /-- The discovery configurations: a list of static configurations, each a
  list of target groups. -/
  ServiceDiscoveryConfigs : List (List Group)
  /-- The basic authentication of the HTTP client, when set. -/
  BasicAuth : Option BasicAuth
deriving DecidableEq, Repr

/-- The notifier configuration (`config.Config`, its alerting part). -/
structure Config where
  /-- The Alertmanager configurations. -/
  AlertmanagerConfigs : List AlertmanagerConfig
deriving DecidableEq, Repr

/-- The admin configuration: the Alertmanager URLs. -/
structure AdminConfiguration where
  /-- The URLs, in order. -/
  Alertmanagers : List String
deriving DecidableEq, Repr

/-- The constant `defaultTimeout`, ten seconds in nanoseconds. -/
def defaultTimeout : Nat := 10 * 1000000000

/-- The constant `config.AlertmanagerAPIVersionV2`. -/
def AlertmanagerAPIVersionV2 : String := "v2"

/-- The constant `model.AddressLabel`. -/
def AddressLabel : String := "__address__"

/-- The body of the loop of `buildNotifierConfig` for a parsed URL. -/
def amConfigOf (u : URL) : AlertmanagerConfig :=
  { APIVersion := AlertmanagerAPIVersionV2
    Scheme := u.Scheme
    PathPrefix := u.Path
    Timeout := defaultTimeout
    ServiceDiscoveryConfigs := [[{ Targets := [[(AddressLabel, u.Host)]] }]]
    BasicAuth :=
      match u.User with
      | none => none
      | some ui =>
        some { Username := ui.username
               Password := if ui.passwordSet then ui.password else "" } }

/-- The loop of `buildNotifierConfig`: `parse` stands for `url.Parse`. -/
def buildLoop {ε : Type} (parse : String → Except ε URL) :
    List String → List AlertmanagerConfig → Except ε (List AlertmanagerConfig)
  | [], amConfigs => .ok amConfigs
  | amURL :: rest, amConfigs =>
    match parse amURL with
    | .error err => .error err
    | .ok u => buildLoop parse rest (amConfigs ++ [amConfigOf u])

/-- Translates the admin configuration into a notifier configuration. -/
def buildNotifierConfig {ε : Type} (parse : String → Except ε URL)
    (cfg : AdminConfiguration) : Except ε Config :=
  match buildLoop parse cfg.Alertmanagers [] with
  | .error err => .error err
  | .ok amConfigs => .ok { AlertmanagerConfigs := amConfigs }

deriving instance DecidableEq for Except

/-! ## Auxiliary definitions for the statements and proofs -/

/-- The bytes of the runes that are not white space, in order. -/
def dropSpaces : List (Nat × GoString) → GoString
  | [] => []
  | (r, bs) :: t => if isSpace r then dropSpaces t else bs ++ dropSpaces t

/-- Everything the replacement loop writes for a list of offset/rune pairs. -/
def writeAll : List (Nat × Nat) → GoString
  | [] => []
  | p :: t => replaceRune p.1 p.2 ++ writeAll t

/-- An ASCII letter or the underscore: the class `[a-zA-Z_]`. -/
def nameStart (b : Nat) : Bool :=
  (97 ≤ b && b ≤ 122) || (65 ≤ b && b ≤ 90) || b == 95

/-- An ASCII letter, digit or underscore: the class `[a-zA-Z0-9_]`. -/
def nameByte (b : Nat) : Bool :=
  nameStart b || (48 ≤ b && b ≤ 57)

/-- The first rune of a string that is not white space, if any. -/
def firstNonSpaceRune (s : GoString) : Option Nat :=
  ((runes s).map Prod.fst).find? (fun r => !isSpace r)

/-- The names of a list of labels. -/
def names (ls : List Label) : List GoString := ls.map Label.Name

/-- The values of a list of labels. -/
def values (ls : List Label) : List GoString := ls.map Label.Value

/-- A sample URL parser for the witness of C8: it knows two URLs and rejects the rest. -/
def sampleParse (s : String) : Except String URL :=
  if s = "http://am1:9093/alertmanager" then
    .ok { Scheme := "http", User := none, Host := "am1:9093", Path := "/alertmanager" }
  else if s = "https://admin:pw@am2" then
    .ok { Scheme := "https", User := some ⟨"admin", "pw", true⟩, Host := "am2", Path := "" }
  else .error "parse error"

/-! ## Decoding lemmas -/

theorem decodeRune_ascii (c : Nat) (t : GoString) (h : c < 0x80) :
    decodeRune (c :: t) = (c, 1) := by
  simp [decodeRune, h]

theorem decodeRune_width_pos (s0 : Nat) (t : GoString) :
    1 ≤ (decodeRune (s0 :: t)).2 := by
  simp only [decodeRune]
  split_ifs <;> (try split) <;> (try split_ifs) <;> simp

theorem decodeRune_low (s0 : Nat) (t : GoString)
    (h : (decodeRune (s0 :: t)).1 < 0x80) : s0 < 0x80 := by
  by_contra hc
  revert h
  simp only [decodeRune, hc, if_false]
  split_ifs <;> (try split) <;> (try split_ifs) <;>
    simp_all only [RuneError, secondLo, secondHi, isCont, Bool.and_eq_true, decide_eq_true_eq] <;>
    (try split_ifs at *) <;> omega

theorem decodeAll_ascii_cons (n c : Nat) (t : GoString) (h : c < 0x80) :
    decodeAll (n + 1) (c :: t) = (c, [c]) :: decodeAll n t := by
  simp [decodeAll, decodeRune_ascii c t h]

theorem runes_ascii_cons (c : Nat) (t : GoString) (h : c < 0x80) :
    runes (c :: t) = (c, [c]) :: runes t := by
  simp [runes, decodeAll_ascii_cons _ c t h]

theorem decodeAll_chunk_ne_nil (n : Nat) (s : GoString) :
    ∀ p ∈ decodeAll n s, p.2 ≠ [] := by
  induction n generalizing s with
  | zero => simp [decodeAll]
  | succ n ih =>
    cases s with
    | nil => simp [decodeAll]
    | cons s0 t =>
      intro p hp
      simp only [decodeAll, List.mem_cons] at hp
      rcases hp with rfl | hp
      · have := decodeRune_width_pos s0 t
        obtain ⟨w, hw⟩ : ∃ w, (decodeRune (s0 :: t)).2 = w + 1 := ⟨_, (Nat.sub_add_cancel this).symm⟩
        simp [hw]
      · exact ih _ p hp

theorem decodeAll_chunk_low (n : Nat) (s : GoString) :
    ∀ p ∈ decodeAll n s, p.1 < 0x80 → p.2 = [p.1] := by
  induction n generalizing s with
  | zero => simp [decodeAll]
  | succ n ih =>
    cases s with
    | nil => simp [decodeAll]
    | cons s0 t =>
      intro p hp hlow
      simp only [decodeAll, List.mem_cons] at hp
      rcases hp with rfl | hp
      · have h0 := decodeRune_low s0 t hlow
        simp [decodeRune_ascii s0 t h0]
      · exact ih _ p hp hlow

theorem runes_eq_nil_iff (s : GoString) : runes s = [] ↔ s = [] := by
  cases s with
  | nil => simp [runes, decodeAll]
  | cons s0 t => simp [runes, decodeAll]

theorem withOffsets_eq_nil_iff (i : Nat) (rs : List (Nat × GoString)) :
    withOffsets i rs = [] ↔ rs = [] := by
  cases rs with
  | nil => simp [withOffsets]
  | cons p t => obtain ⟨r, bs⟩ := p; simp [withOffsets]

theorem rangeString_eq_nil_iff (s : GoString) : rangeString s = [] ↔ s = [] := by
  simp [rangeString, withOffsets_eq_nil_iff, runes_eq_nil_iff]

/-! ## Fields and Join -/

theorem Join_cons_nil (x : GoString) (xs : List GoString) :
    Join (x :: xs) [] = x ++ Join xs [] := by
  cases xs with
  | nil => simp [Join]
  | cons y t => simp [Join]

theorem Join_fieldsAux (rs : List (Nat × GoString)) (cur : GoString) :
    Join (fieldsAux rs cur) [] = cur ++ dropSpaces rs := by
  induction rs generalizing cur with
  | nil =>
    cases cur with
    | nil => simp [fieldsAux, Join, dropSpaces]
    | cons c t => simp [fieldsAux, Join, dropSpaces]
  | cons p t ih =>
    obtain ⟨r, bs⟩ := p
    by_cases hr : isSpace r = true
    · cases cur with
      | nil => simp [fieldsAux, dropSpaces, hr, ih]
      | cons c u => simp [fieldsAux, dropSpaces, hr, ih, Join_cons_nil]
    · simp [fieldsAux, dropSpaces, hr, ih]

theorem Join_Fields (s : GoString) : Join (Fields s) [] = dropSpaces (runes s) := by
  simp [Fields, Join_fieldsAux]

theorem dropSpaces_eq_nil_iff (rs : List (Nat × GoString)) (hne : ∀ p ∈ rs, p.2 ≠ []) :
    dropSpaces rs = [] ↔ ∀ p ∈ rs, isSpace p.1 = true := by
  induction rs with
  | nil => simp [dropSpaces]
  | cons p t ih =>
    obtain ⟨r, bs⟩ := p
    have hbs : bs ≠ [] := hne (r, bs) (List.mem_cons_self _ _)
    have ih2 := ih (fun q hq => hne q (List.mem_cons_of_mem _ hq))
    by_cases hr : isSpace r = true
    · simp [dropSpaces, hr, ih2]
    · simp [dropSpaces, hr, hbs]

theorem dropSpaces_head (rs : List (Nat × GoString)) (c : Nat)
    (hlow : ∀ p ∈ rs, p.1 < 0x80 → p.2 = [p.1])
    (hfirst : (rs.map Prod.fst).find? (fun r => !isSpace r) = some c) (hc : c < 0x80) :
    ∃ rest, dropSpaces rs = c :: rest := by
  induction rs with
  | nil => simp at hfirst
  | cons p t ih =>
    obtain ⟨r, bs⟩ := p
    by_cases hr : isSpace r = true
    · simp only [List.map_cons, List.find?_cons, hr, Bool.not_true] at hfirst
      simpa [dropSpaces, hr] using ih (fun q hq => hlow q (List.mem_cons_of_mem _ hq)) hfirst
    · simp only [List.map_cons, List.find?_cons, hr, Bool.not_false, Option.some.injEq,
        Bool.not_eq_true] at hfirst
      simp only [Bool.not_eq_true] at hr
      subst hfirst
      have := hlow (r, bs) (List.mem_cons_self _ _) hc
      simp only at this
      exact ⟨dropSpaces t, by simp [dropSpaces, hr, this]⟩

/-! ## The replacement loop -/

theorem foldl_write (l : List (Nat × Nat)) (acc : GoString) :
    l.foldl (fun buf p => buf ++ replaceRune p.1 p.2) acc = acc ++ writeAll l := by
  induction l generalizing acc with
  | nil => simp [writeAll]
  | cons p t ih => simp [writeAll, ih]

theorem encodeRune_ne_nil (r : Nat) : encodeRune r ≠ [] := by
  unfold encodeRune
  split_ifs <;> simp

theorem hexAux_ne_nil (fuel n : Nat) (acc : GoString) : hexAux (fuel + 1) n acc ≠ [] := by
  induction fuel generalizing n acc with
  | zero => simp only [hexAux]; split_ifs <;> simp
  | succ k ih =>
    rw [hexAux]
    split_ifs
    · simp
    · exact ih _ _

theorem replaceRune_ne_nil (i b : Nat) : replaceRune i b ≠ [] := by
  unfold replaceRune
  split_ifs
  · exact encodeRune_ne_nil _
  · exact encodeRune_ne_nil _
  · exact hexAux_ne_nil _ _ _

theorem writeAll_eq_nil_iff (l : List (Nat × Nat)) : writeAll l = [] ↔ l = [] := by
  cases l with
  | nil => simp [writeAll]
  | cons p t => simp [writeAll, replaceRune_ne_nil]

/-- The text `sanitizeLabelName` builds for a name that is not valid. -/
theorem sanitizeLabelName_eq (name : GoString) :
    sanitizeLabelName name =
      if name = [] then .error .emptyName
      else if isValidLabelName name = true then .ok name
      else if dropSpaces (runes name) = [] then .error .onlyInvalidChars
      else .ok (writeAll (rangeString (dropSpaces (runes name)))) := by
  unfold sanitizeLabelName
  simp only [List.length_eq_zero, foldl_write, List.nil_append, Join_Fields,
    writeAll_eq_nil_iff, rangeString_eq_nil_iff]

/-! ## Characters of the result -/

theorem nameByte_lt (b : Nat) (h : nameByte b = true) : b < 0x80 := by
  simp only [nameByte, nameStart, Bool.or_eq_true, Bool.and_eq_true, decide_eq_true_eq,
    beq_iff_eq] at h
  omega

theorem nameStart_nameByte (b : Nat) (h : nameStart b = true) : nameByte b = true := by
  simp [nameByte, h]

theorem allowedRune_pos (i b : Nat) (hi : 0 < i) : allowedRune i b = nameByte b := by
  simp [allowedRune, nameByte, nameStart, hi]

theorem allowedRune_zero (b : Nat) : allowedRune 0 b = nameStart b := by
  simp [allowedRune, nameStart]

theorem allowedRune_nameByte (i b : Nat) (h : allowedRune i b = true) : nameByte b = true := by
  simp only [allowedRune, Bool.or_eq_true, Bool.and_eq_true, decide_eq_true_eq,
    beq_iff_eq] at h
  simp only [nameByte, nameStart, Bool.or_eq_true, Bool.and_eq_true, decide_eq_true_eq,
    beq_iff_eq]
  omega

theorem hexDigit_nameByte (d : Nat) (h : d < 16) : nameByte (hexDigit d) = true := by
  simp only [nameByte, nameStart, hexDigit, Bool.or_eq_true, Bool.and_eq_true,
    decide_eq_true_eq, beq_iff_eq]
  split_ifs <;> omega

theorem hexAux_nameByte (fuel n : Nat) (acc : GoString)
    (hacc : ∀ x ∈ acc, nameByte x = true) : ∀ x ∈ hexAux fuel n acc, nameByte x = true := by
  induction fuel generalizing n acc with
  | zero => simpa [hexAux] using hacc
  | succ k ih =>
    have hd : nameByte (hexDigit (n % 16)) = true := hexDigit_nameByte _ (Nat.mod_lt _ (by decide))
    have hacc2 : ∀ x ∈ hexDigit (n % 16) :: acc, nameByte x = true := by
      intro x hx
      rcases List.mem_cons.1 hx with rfl | hx
      · exact hd
      · exact hacc x hx
    rw [hexAux]
    split_ifs
    · exact hacc2
    · exact ih _ _ hacc2

theorem replaceRune_nameByte (i b : Nat) : ∀ x ∈ replaceRune i b, nameByte x = true := by
  unfold replaceRune
  split_ifs with h1 h2
  · have hb := allowedRune_nameByte i b h1
    have := nameByte_lt b hb
    simp [encodeRune, this, hb]
  · simp [encodeRune, nameByte, nameStart]
  · exact hexAux_nameByte _ _ _ (by simp)

theorem replaceRune_zero_low (b : Nat) (h : b < 0x80) :
    replaceRune 0 b = [if nameStart b = true then b else 95] := by
  unfold replaceRune
  rw [allowedRune_zero]
  have h2 : b ≤ MaxASCII := by simp only [MaxASCII]; omega
  by_cases hs : nameStart b = true
  · simp [hs, encodeRune, h]
  · simp [hs, encodeRune, h2]

theorem writeAll_nameByte (l : List (Nat × Nat)) : ∀ x ∈ writeAll l, nameByte x = true := by
  induction l with
  | nil => simp [writeAll]
  | cons p t ih =>
    intro x hx
    simp only [writeAll, List.mem_append] at hx
    rcases hx with hx | hx
    · exact replaceRune_nameByte _ _ x hx
    · exact ih x hx

theorem withOffsets_runes_allowed (t : GoString) (i : Nat) (hi : 0 < i)
    (h : ∀ b ∈ t, nameByte b = true) :
    (withOffsets i (runes t)).all (fun p => allowedRune p.1 p.2) = true := by
  induction t generalizing i with
  | nil => simp [runes, decodeAll, withOffsets]
  | cons b t ih =>
    have hb := h b (List.mem_cons_self _ _)
    rw [runes_ascii_cons b t (nameByte_lt b hb)]
    simp only [withOffsets, List.all_cons, allowedRune_pos i b hi, hb, Bool.true_and]
    exact ih _ (by simp) (fun x hx => h x (List.mem_cons_of_mem _ hx))

/-- A non-empty byte string over `[a-zA-Z0-9_]` that starts in `[a-zA-Z_]` is a
valid label name. -/
theorem isValidLabelName_of_bytes (c : Nat) (t : GoString) (hc : nameStart c = true)
    (h : ∀ b ∈ t, nameByte b = true) : isValidLabelName (c :: t) = true := by
  have hlt := nameByte_lt c (nameStart_nameByte c hc)
  have hr : rangeString (c :: t) = (0, c) :: withOffsets 1 (runes t) := by
    rw [rangeString, runes_ascii_cons c t hlt]
    simp [withOffsets]
  rw [isValidLabelName, hr]
  simp only [List.length_cons, Nat.add_one_ne_zero, if_false, List.all_cons, allowedRune_zero,
    hc, Bool.true_and]
  exact withOffsets_runes_allowed t 1 (by decide) h

theorem isValidLabelName_ne_nil (s : GoString) (h : isValidLabelName s = true) : s ≠ [] := by
  rintro rfl
  simp [isValidLabelName] at h

/-! ## Valid names, byte by byte -/

theorem decodeAll_chunks (n : Nat) (s : GoString) (h : s.length ≤ n) :
    ((decodeAll n s).map Prod.snd).flatten = s := by
  induction n generalizing s with
  | zero =>
    have : s = [] := List.length_eq_zero.1 (Nat.le_zero.1 h)
    simp [decodeAll, this]
  | succ n ih =>
    cases s with
    | nil => simp [decodeAll]
    | cons s0 t =>
      have hw := decodeRune_width_pos s0 t
      have hlen : ((s0 :: t).drop (decodeRune (s0 :: t)).2).length ≤ n := by
        simp only [List.length_drop, List.length_cons] at h ⊢
        omega
      simp only [decodeAll, List.map_cons, List.flatten_cons, ih _ hlen, List.take_append_drop]

theorem nameByte_not_space (r : Nat) (h : nameByte r = true) : isSpace r = false := by
  have hlt := nameByte_lt r h
  simp only [nameByte, nameStart, Bool.or_eq_true, Bool.and_eq_true, decide_eq_true_eq,
    beq_iff_eq] at h
  have h255 : r ≤ 0xFF := by omega
  simp only [isSpace, h255, if_true, Bool.or_eq_false_iff, beq_eq_false_iff_ne, ne_eq]
  omega

theorem withOffsets_all_nameByte (rs : List (Nat × GoString)) (i : Nat)
    (h : (withOffsets i rs).all (fun p => allowedRune p.1 p.2) = true) :
    ∀ p ∈ rs, nameByte p.1 = true := by
  induction rs generalizing i with
  | nil => simp
  | cons q t ih =>
    obtain ⟨r, bs⟩ := q
    simp only [withOffsets, List.all_cons, Bool.and_eq_true] at h
    intro p hp
    rcases List.mem_cons.1 hp with rfl | hp
    · exact allowedRune_nameByte _ _ h.1
    · exact ih _ h.2 p hp

theorem join_chunks_low (rs : List (Nat × GoString))
    (h : ∀ p ∈ rs, p.2 = [p.1]) : (rs.map Prod.snd).flatten = rs.map Prod.fst := by
  induction rs with
  | nil => simp
  | cons q t ih =>
    have hq := h q (List.mem_cons_self _ _)
    simp [hq, ih (fun p hp => h p (List.mem_cons_of_mem _ hp))]

/-- The code's validity test is the grammar `^[a-zA-Z_][a-zA-Z0-9_]*$` on bytes. -/
theorem isValidLabelName_iff (s : GoString) :
    isValidLabelName s = true ↔
      ∃ c t, s = c :: t ∧ nameStart c = true ∧ ∀ b ∈ t, nameByte b = true := by
  constructor
  · intro hv
    cases s with
    | nil => simp [isValidLabelName] at hv
    | cons s0 t =>
      have hall : (rangeString (s0 :: t)).all (fun p => allowedRune p.1 p.2) = true := by
        simpa [isValidLabelName] using hv
      have hnb := withOffsets_all_nameByte _ _ hall
      have hlow : ∀ p ∈ runes (s0 :: t), p.2 = [p.1] := fun p hp =>
        decodeAll_chunk_low _ _ p hp (nameByte_lt _ (hnb p hp))
      have hbytes : (runes (s0 :: t)).map Prod.fst = s0 :: t := by
        rw [← join_chunks_low _ hlow]
        exact decodeAll_chunks _ _ (le_refl _)
      have hs0 : s0 < 0x80 := by
        have h1 : s0 ∈ (runes (s0 :: t)).map Prod.fst := by rw [hbytes]; simp
        obtain ⟨p, hp, rfl⟩ := List.mem_map.1 h1
        exact nameByte_lt _ (hnb p hp)
      refine ⟨s0, t, rfl, ?_, ?_⟩
      · have hr : rangeString (s0 :: t) = (0, s0) :: withOffsets 1 (runes t) := by
          rw [rangeString, runes_ascii_cons s0 t hs0]
          simp [withOffsets]
        rw [hr] at hall
        simp only [List.all_cons, Bool.and_eq_true, allowedRune_zero] at hall
        exact hall.1
      · intro b hb
        have h1 : b ∈ (runes (s0 :: t)).map Prod.fst := by rw [hbytes]; simp [hb]
        obtain ⟨p, hp, rfl⟩ := List.mem_map.1 h1
        exact hnb p hp
  · rintro ⟨c, t, rfl, hc, ht⟩
    exact isValidLabelName_of_bytes c t hc ht

theorem sanitizeLabelName_of_valid (name : GoString) (h : isValidLabelName name = true) :
    sanitizeLabelName name = .ok name := by
  rw [sanitizeLabelName_eq]
  simp [isValidLabelName_ne_nil name h, h]

theorem valid_not_all_space (name : GoString) (h : isValidLabelName name = true) :
    ¬ ∀ p ∈ runes name, isSpace p.1 = true := by
  intro hall
  cases name with
  | nil => simp [isValidLabelName] at h
  | cons s0 t =>
    have hv : (rangeString (s0 :: t)).all (fun p => allowedRune p.1 p.2) = true := by
      simpa [isValidLabelName] using h
    have hnb := withOffsets_all_nameByte _ _ hv
    have hne : runes (s0 :: t) ≠ [] := by simp [runes_eq_nil_iff]
    obtain ⟨p, hp⟩ := List.exists_mem_of_ne_nil _ hne
    have := nameByte_not_space _ (hnb p hp)
    rw [hall p hp] at this
    exact Bool.noConfusion this

/-! ## Claims about `sanitizeLabelName` -/

theorem rangeString_ascii_cons (c : Nat) (t : GoString) (h : c < 0x80) :
    rangeString (c :: t) = (0, c) :: withOffsets 1 (runes t) := by
  rw [rangeString, runes_ascii_cons c t h]
  simp [withOffsets]

theorem Join_Fields_eq_nil_iff (name : GoString) :
    Join (Fields name) [] = [] ↔ ∀ p ∈ runes name, isSpace p.1 = true := by
  rw [Join_Fields]
  exact dropSpaces_eq_nil_iff _ (decodeAll_chunk_ne_nil _ _)

/-- C1 (failing input): the name `Ā` (U+0100, bytes `C4 80`) is not white space and sanitizes
without error to `100`, which starts with a digit and is rejected by `isValidLabelName`. -/
theorem sanitizeLabelName_leading_hex_digit :
    firstNonSpaceRune [0xC4, 0x80] = some 0x100 ∧
    sanitizeLabelName [0xC4, 0x80] = .ok (ascii "100") ∧
    isValidLabelName (ascii "100") = false := by
  decide

/-- C4: `sanitizeLabelName` returns an error exactly when the name is empty on input or empty
after fixing, which is the case exactly when every character of the name is white space; every
other name gives a non-empty string and no error. The function is total: it never panics. -/
theorem sanitizeLabelName_error_iff (name : GoString) :
    ((∃ e, sanitizeLabelName name = .error e) ↔ (name = [] ∨ Join (Fields name) [] = [])) ∧
    ((name = [] ∨ Join (Fields name) [] = []) ↔ ∀ p ∈ runes name, isSpace p.1 = true) ∧
    (¬ (∀ p ∈ runes name, isSpace p.1 = true) →
      ∃ r, sanitizeLabelName name = .ok r ∧ r ≠ []) := by
  have hJ := Join_Fields_eq_nil_iff name
  have hD : dropSpaces (runes name) = [] ↔ ∀ p ∈ runes name, isSpace p.1 = true := by
    rw [← Join_Fields]; exact hJ
  have hnil : name = [] → ∀ p ∈ runes name, isSpace p.1 = true := by
    rintro rfl
    simp [runes, decodeAll]
  have hspace : (name = [] ∨ Join (Fields name) [] = []) ↔
      ∀ p ∈ runes name, isSpace p.1 = true := by
    constructor
    · rintro (h | h)
      · exact hnil h
      · exact hJ.1 h
    · intro h
      exact Or.inr (hJ.2 h)
  refine ⟨?_, hspace, ?_⟩
  · rw [hspace, sanitizeLabelName_eq]
    by_cases h0 : name = []
    · simp [h0, runes, decodeAll]
    · by_cases hv : isValidLabelName name = true
      · simp only [h0, hv, if_true, if_false]
        constructor
        · rintro ⟨e, he⟩
          cases he
        · intro h
          exact absurd h (valid_not_all_space name hv)
      · rw [Bool.not_eq_true] at hv
        by_cases hd : dropSpaces (runes name) = []
        · simp only [h0, hv, hd, if_true, if_false, Bool.false_eq_true]
          exact ⟨fun _ => hD.1 hd, fun _ => ⟨_, rfl⟩⟩
        · simp only [h0, hv, hd, if_false, Bool.false_eq_true]
          constructor
          · rintro ⟨e, he⟩
            cases he
          · intro h
            exact absurd (hD.2 h) hd
  · intro hns
    have h0 : name ≠ [] := fun h => hns (hnil h)
    have hd : dropSpaces (runes name) ≠ [] := fun h => hns (hD.1 h)
    rw [sanitizeLabelName_eq]
    by_cases hv : isValidLabelName name = true
    · exact ⟨name, by simp [h0, hv], h0⟩
    · rw [Bool.not_eq_true] at hv
      refine ⟨writeAll (rangeString (dropSpaces (runes name))),
        by simp only [h0, hv, hd, if_false, Bool.false_eq_true], ?_⟩
      simp [writeAll_eq_nil_iff, rangeString_eq_nil_iff, hd]

/-- C9 (failing input): the name made of the single character with code 127 (DEL) is not
valid, and the code replaces the character by an underscore, where the documented rule
(hexadecimal for codes `>= 127`) asks for the text `7f`. -/
theorem sanitizeLabelName_del :
    isValidLabelName [127] = false ∧
    sanitizeLabelName [127] = .ok (ascii "_") ∧
    fmtHex 127 = ascii "7f" := by
  decide

/-- C10: when `sanitizeLabelName` succeeds on a name whose first character that is not white
space has a code point of at most 127, the result matches `^[a-zA-Z_][a-zA-Z0-9_]*$`: it
starts with a letter or underscore and continues with letters, digits and underscores; for a
name that was not already valid, the result starts with that first character when it is a
letter or underscore and with an underscore otherwise. -/
theorem sanitizeLabelName_valid_of_ascii_start (name r : GoString) (c : Nat)
    (hok : sanitizeLabelName name = .ok r)
    (hfirst : firstNonSpaceRune name = some c) (hc : c ≤ 127) :
    isValidLabelName r = true ∧
    (∃ c0 t, r = c0 :: t ∧ nameStart c0 = true ∧ ∀ b ∈ t, nameByte b = true) ∧
    (isValidLabelName name = false →
      r.head? = some (if nameStart c = true then c else 95)) := by
  rw [sanitizeLabelName_eq] at hok
  by_cases h0 : name = []
  · simp [h0] at hok
  · by_cases hv : isValidLabelName name = true
    · simp only [h0, hv, if_true, if_false, Except.ok.injEq] at hok
      subst hok
      exact ⟨hv, (isValidLabelName_iff _).1 hv, fun h => by simp [hv] at h⟩
    · rw [Bool.not_eq_true] at hv
      by_cases hd : dropSpaces (runes name) = []
      · simp [h0, hv, hd] at hok
      · simp only [h0, hv, hd, if_false, Bool.false_eq_true] at hok
        have hc2 : c < 0x80 := by omega
        obtain ⟨rest, hrest⟩ := dropSpaces_head (runes name) c
          (decodeAll_chunk_low _ _) hfirst hc2
        rw [hrest, rangeString_ascii_cons c rest hc2] at hok
        simp only [writeAll, replaceRune_zero_low c hc2, List.singleton_append,
          Except.ok.injEq] at hok
        have hstart : nameStart (if nameStart c = true then c else 95) = true := by
          by_cases hs : nameStart c = true
          · simp [hs]
          · rw [if_neg hs]; decide
        have hrestb := writeAll_nameByte (withOffsets 1 (runes rest))
        subst hok
        exact ⟨isValidLabelName_of_bytes _ _ hstart hrestb, ⟨_, _, rfl, hstart, hrestb⟩,
          fun _ => by simp⟩

/-- Witness for C10: `9 lives!` starts with the digit `9` and sanitizes to `_lives_`. -/
theorem sanitizeLabelName_valid_of_ascii_start_witness :
    sanitizeLabelName (ascii "9 lives!") = .ok (ascii "_lives_") ∧
    isValidLabelName (ascii "_lives_") = true :=
  ⟨by decide,
   (sanitizeLabelName_valid_of_ascii_start (ascii "9 lives!") (ascii "_lives_") 57
      (by decide) (by decide) (by decide)).1⟩

/-! ## The map and its sorted keys -/

theorem get_of_mem (lbls : LabelSet) (hnd : lbls.keys.Nodup) (k v : GoString)
    (h : (k, v) ∈ lbls) : lbls.get k = v := by
  induction lbls with
  | nil => simp at h
  | cons p t ih =>
    obtain ⟨k0, v0⟩ := p
    simp only [LabelSet.keys, List.map_cons, List.nodup_cons, List.mem_map, not_exists,
      not_and] at hnd
    rcases List.mem_cons.1 h with heq | hmem
    · cases heq
      simp [LabelSet.get]
    · have hne : k ≠ k0 := fun hk => hnd.1 (k, v) hmem (by simp [hk])
      simp only [LabelSet.get, hne, if_false]
      exact ih hnd.2 hmem

theorem get_of_not_mem (lbls : LabelSet) (k : GoString) (h : k ∉ lbls.keys) :
    lbls.get k = [] := by
  induction lbls with
  | nil => simp [LabelSet.get]
  | cons p t ih =>
    obtain ⟨k0, v0⟩ := p
    simp only [LabelSet.keys, List.map_cons, List.mem_cons, not_or] at h
    simp only [LabelSet.get, h.1, if_false]
    exact ih h.2

theorem get_perm (l₁ l₂ : LabelSet) (hp : l₁.Perm l₂) (hnd : l₁.keys.Nodup)
    (k : GoString) : l₁.get k = l₂.get k := by
  have hk : l₁.keys.Perm l₂.keys := hp.map _
  have hnd2 : l₂.keys.Nodup := hk.nodup_iff.1 hnd
  by_cases hmem : k ∈ l₁.keys
  · obtain ⟨p, hp1, hp2⟩ := List.mem_map.1 hmem
    obtain ⟨k0, v⟩ := p
    simp only at hp2
    subst hp2
    rw [get_of_mem l₁ hnd _ v hp1, get_of_mem l₂ hnd2 _ v (hp.mem_iff.1 hp1)]
  · rw [get_of_not_mem l₁ k hmem, get_of_not_mem l₂ k (fun h => hmem (hk.mem_iff.2 h))]

theorem sortStrings_sorted (xs : List GoString) : (sortStrings xs).Sorted (· ≤ ·) :=
  List.sorted_insertionSort _ xs

theorem sortStrings_perm (xs : List GoString) : (sortStrings xs).Perm xs :=
  List.perm_insertionSort _ xs

theorem sortStrings_eq_of_perm (xs ys : List GoString) (h : xs.Perm ys) :
    sortStrings xs = sortStrings ys :=
  List.eq_of_perm_of_sorted
    ((sortStrings_perm xs).trans (h.trans (sortStrings_perm ys).symm))
    (sortStrings_sorted xs) (sortStrings_sorted ys)

theorem sortedKeys_perm (lbls : LabelSet) : (sortedKeys lbls).Perm lbls.keys :=
  sortStrings_perm _

/-! ## The loop of `sanitizeLabelSet` -/

theorem sanitizeKeys_nil (lbls : LabelSet) (st : LoopState) :
    sanitizeKeys lbls [] st = st := rfl

theorem sanitizeKeys_cons (lbls : LabelSet) (k : GoString) (ks : List GoString)
    (st : LoopState) :
    sanitizeKeys lbls (k :: ks) st = sanitizeKeys lbls ks (sanitizeStep lbls st k) := rfl

theorem sanitizeKeys_snoc (lbls : LabelSet) (k : GoString) (ks : List GoString)
    (st : LoopState) :
    sanitizeKeys lbls (ks ++ [k]) st = sanitizeStep lbls (sanitizeKeys lbls ks st) k := by
  simp [sanitizeKeys, List.foldl_append]

theorem sanitizeStep_congr (l₁ l₂ : LabelSet) (h : ∀ k, l₁.get k = l₂.get k)
    (st : LoopState) (k : GoString) : sanitizeStep l₁ st k = sanitizeStep l₂ st k := by
  simp [sanitizeStep, h]

theorem sanitizeKeys_congr (l₁ l₂ : LabelSet) (h : ∀ k, l₁.get k = l₂.get k)
    (ks : List GoString) (st : LoopState) :
    sanitizeKeys l₁ ks st = sanitizeKeys l₂ ks st := by
  induction ks generalizing st with
  | nil => rfl
  | cons k t ih => rw [sanitizeKeys_cons, sanitizeKeys_cons, sanitizeStep_congr l₁ l₂ h, ih]

/-- The `set` of the loop holds exactly the names of the labels built so far. -/
theorem sanitizeStep_set (lbls : LabelSet) (st : LoopState) (k : GoString)
    (h : ∀ x, x ∈ st.set ↔ x ∈ names st.ls) :
    ∀ x, x ∈ (sanitizeStep lbls st k).set ↔ x ∈ names (sanitizeStep lbls st k).ls := by
  intro x
  unfold sanitizeStep
  split
  · exact h x
  · simp only [names, List.map_append, List.map_cons, List.map_nil, List.mem_cons,
      List.mem_append, List.mem_singleton, List.not_mem_nil, or_false]
    rw [h x]
    simp only [names]
    tauto

theorem sanitizeKeys_set (lbls : LabelSet) (ks : List GoString) (st : LoopState)
    (h : ∀ x, x ∈ st.set ↔ x ∈ names st.ls) :
    ∀ x, x ∈ (sanitizeKeys lbls ks st).set ↔ x ∈ names (sanitizeKeys lbls ks st).ls := by
  induction ks generalizing st with
  | nil => exact h
  | cons k t ih =>
    rw [sanitizeKeys_cons]
    exact ih _ (sanitizeStep_set lbls st k h)

theorem sanitizeKeys_values (lbls : LabelSet) (ks : List GoString) (st : LoopState) :
    values (sanitizeKeys lbls ks st).ls =
      values st.ls ++ (ks.filter (fun k => (sanitizeLabelName k).isOk)).map lbls.get := by
  induction ks generalizing st with
  | nil => simp [sanitizeKeys_nil]
  | cons k t ih =>
    rw [sanitizeKeys_cons, ih]
    unfold sanitizeStep
    cases hk : sanitizeLabelName k with
    | error e => simp [Except.isOk, Except.toBool, hk]
    | ok r => simp [Except.isOk, Except.toBool, hk, values]

theorem sanitizeKeys_valid (lbls : LabelSet) (ks : List GoString) (st : LoopState)
    (hv : ∀ k ∈ ks, isValidLabelName k = true) (hnd : ks.Nodup)
    (hdis : ∀ k ∈ ks, k ∉ st.set) :
    sanitizeKeys lbls ks st =
      ⟨st.ls ++ ks.map (fun k => ⟨k, lbls.get k⟩), ks.reverse ++ st.set⟩ := by
  induction ks generalizing st with
  | nil => simp [sanitizeKeys_nil]
  | cons k t ih =>
    have hk := sanitizeLabelName_of_valid k (hv k (List.mem_cons_self _ _))
    have hkset : k ∉ st.set := hdis k (List.mem_cons_self _ _)
    have hstep : sanitizeStep lbls st k = ⟨st.ls ++ [⟨k, lbls.get k⟩], k :: st.set⟩ := by
      simp [sanitizeStep, hk, hkset]
    rw [List.nodup_cons] at hnd
    rw [sanitizeKeys_cons, hstep, ih _ (fun x hx => hv x (List.mem_cons_of_mem _ hx)) hnd.2]
    · simp
    · intro x hx
      simp only [List.mem_cons, not_or]
      exact ⟨fun h => hnd.1 (h ▸ hx), hdis x (List.mem_cons_of_mem _ hx)⟩

/-! ## Distinctness of the output names -/

/-- The condition under which no appended collision suffix repeats a used name, for the
loop over `ks` from the empty state. -/
theorem suffix_condition_snoc (lbls : LabelSet) (ks : List GoString) (k : GoString) :
    (∀ pre k0 post name, ks ++ [k] = pre ++ k0 :: post →
        sanitizeLabelName k0 = .ok name →
        name ∈ (sanitizeKeys lbls pre ⟨[], []⟩).set →
        name ++ hashSuffix k0 ∉ (sanitizeKeys lbls pre ⟨[], []⟩).set) ↔
      ((∀ pre k0 post name, ks = pre ++ k0 :: post →
        sanitizeLabelName k0 = .ok name →
        name ∈ (sanitizeKeys lbls pre ⟨[], []⟩).set →
        name ++ hashSuffix k0 ∉ (sanitizeKeys lbls pre ⟨[], []⟩).set) ∧
       (∀ name, sanitizeLabelName k = .ok name →
        name ∈ (sanitizeKeys lbls ks ⟨[], []⟩).set →
        name ++ hashSuffix k ∉ (sanitizeKeys lbls ks ⟨[], []⟩).set)) := by
  constructor
  · intro h
    refine ⟨?_, ?_⟩
    · intro pre k0 post name hsplit
      exact h pre k0 (post ++ [k]) name (by simp [hsplit])
    · intro name
      exact h ks k [] name rfl
  · rintro ⟨h1, h2⟩ pre k0 post name hsplit
    rcases List.eq_nil_or_concat post with hpost | ⟨post0, x, hpost⟩
    · subst hpost
      have := List.append_inj' hsplit rfl
      obtain ⟨hks, hk⟩ := this
      simp only [List.cons.injEq, and_true] at hk
      subst hks hk
      exact h2 name
    · subst hpost
      have hsplit2 : ks ++ [k] = (pre ++ k0 :: post0) ++ [x] := by simp [hsplit]
      have := List.append_inj' hsplit2 rfl
      exact h1 pre k0 post0 name this.1

theorem sanitizeStep_names_nodup (lbls : LabelSet) (st : LoopState) (k : GoString)
    (hset : ∀ x, x ∈ st.set ↔ x ∈ names st.ls) :
    (names (sanitizeStep lbls st k).ls).Nodup ↔
      ((names st.ls).Nodup ∧
        ∀ name, sanitizeLabelName k = .ok name → name ∈ st.set →
          name ++ hashSuffix k ∉ st.set) := by
  unfold sanitizeStep
  cases hk : sanitizeLabelName k with
  | error e => simp
  | ok r =>
    have hset2 : ∀ x, x ∈ st.set ↔ x ∈ List.map Label.Name st.ls := hset
    simp only [names, List.map_append, List.map_cons, List.map_nil, Except.ok.injEq,
      forall_eq']
    rw [List.nodup_append]
    simp only [List.nodup_cons, List.not_mem_nil, not_false_eq_true, List.nodup_nil, and_self,
      true_and, List.disjoint_singleton]
    by_cases hr : r ∈ st.set
    · simp only [hr, if_true, forall_true_left]
      rw [← hset2]
    · simp only [hr, if_false, false_implies, and_true, and_iff_left_iff_imp]
      intro _
      rwa [← hset2]

theorem sanitizeKeys_names_nodup (lbls : LabelSet) (ks : List GoString) :
    (names (sanitizeKeys lbls ks ⟨[], []⟩).ls).Nodup ↔
      ∀ pre k post name, ks = pre ++ k :: post →
        sanitizeLabelName k = .ok name →
        name ∈ (sanitizeKeys lbls pre ⟨[], []⟩).set →
        name ++ hashSuffix k ∉ (sanitizeKeys lbls pre ⟨[], []⟩).set := by
  induction ks using List.reverseRecOn with
  | nil => simp [sanitizeKeys_nil, names]
  | append_singleton ks k ih =>
    rw [suffix_condition_snoc, sanitizeKeys_snoc,
      sanitizeStep_names_nodup lbls _ k (sanitizeKeys_set lbls ks _ (by simp [names])), ih]

/-! ## Claims about `sanitizeLabelSet` -/

set_option maxRecDepth 100000

/-- The embedding of `md5.Sum` reproduces the test vectors of RFC 1321 for the empty message
and for `abc`. -/
theorem md5_test_vectors :
    MD5.sum [] = [0xd4, 0x1d, 0x8c, 0xd9, 0x8f, 0x00, 0xb2, 0x04,
      0xe9, 0x80, 0x09, 0x98, 0xec, 0xf8, 0x42, 0x7e] ∧
    MD5.sum (ascii "abc") = [0x90, 0x01, 0x50, 0x98, 0x3c, 0xd2, 0x4f, 0xb0,
      0xd6, 0x96, 0x3f, 0x7d, 0x28, 0xe1, 0x7f, 0x72] := by
  decide

/-- The loop `for i, b := range s` on `A é€ <FF>`: byte offsets and runes, the malformed
byte `FF` giving `U+FFFD`. -/
theorem rangeString_sample :
    rangeString [0x41, 0xC3, 0xA9, 0xE2, 0x82, 0xAC, 0xFF] =
      [(0, 0x41), (1, 0xE9), (3, 0x20AC), (6, 0xFFFD)] := by
  decide

/-- C2 (counterexample): the map `{"a_": "1", "a__203f70": "2", "a~": "3"}` has three distinct
keys; `a~` sanitizes to the used name `a_` and gets the suffix `_203f70` (the first three bytes
of its MD5 digest), which is the name the key `a__203f70` already carries: the output holds the
name `a__203f70` twice. -/
theorem sanitizeLabelSet_duplicate_names :
    (LabelSet.keys [(ascii "a_", ascii "1"), (ascii "a__203f70", ascii "2"),
      (ascii "a~", ascii "3")]).Nodup ∧
    sanitizeLabelSet [(ascii "a_", ascii "1"), (ascii "a__203f70", ascii "2"),
      (ascii "a~", ascii "3")] =
      [⟨ascii "a_", ascii "1"⟩, ⟨ascii "a__203f70", ascii "2"⟩,
        ⟨ascii "a__203f70", ascii "3"⟩] ∧
    ¬ (names (sanitizeLabelSet [(ascii "a_", ascii "1"), (ascii "a__203f70", ascii "2"),
      (ascii "a~", ascii "3")])).Nodup := by
  decide

/-- C2 (amended): the names returned by `sanitizeLabelSet` are pairwise distinct exactly when
no name that gets a collision suffix equals, once suffixed, a name output earlier in the pass;
a name output without a suffix never repeats an earlier one. -/
theorem sanitizeLabelSet_names_nodup_iff (lbls : LabelSet) :
    (names (sanitizeLabelSet lbls)).Nodup ↔
      ∀ pre k post name, sortedKeys lbls = pre ++ k :: post →
        sanitizeLabelName k = .ok name →
        name ∈ names (sanitizeKeys lbls pre ⟨[], []⟩).ls →
        name ++ hashSuffix k ∉ names (sanitizeKeys lbls pre ⟨[], []⟩).ls := by
  have hset : ∀ pre x, x ∈ (sanitizeKeys lbls pre ⟨[], []⟩).set ↔
      x ∈ names (sanitizeKeys lbls pre ⟨[], []⟩).ls :=
    fun pre => sanitizeKeys_set lbls pre _ (by simp [names])
  rw [sanitizeLabelSet, sanitizeKeys_names_nodup]
  constructor
  · intro h pre k post name hs hok hin
    rw [← hset]
    exact h pre k post name hs hok ((hset pre name).2 hin)
  · intro h pre k post name hs hok hin
    rw [hset]
    exact h pre k post name hs hok ((hset pre name).1 hin)

/-- Witness for C2 (amended): in `{"a!": "3", "a_": "1"}` the name `a_` collides with the
sanitized `a!` and becomes `a__576e09`; the two output names are distinct, so no suffixed
name repeats an earlier one. -/
theorem sanitizeLabelSet_names_nodup_iff_witness :
    names (sanitizeLabelSet [(ascii "a!", ascii "3"), (ascii "a_", ascii "1")]) =
      [ascii "a_", ascii "a__576e09"] ∧
    ∀ pre k post name,
      sortedKeys [(ascii "a!", ascii "3"), (ascii "a_", ascii "1")] = pre ++ k :: post →
      sanitizeLabelName k = .ok name →
      name ∈ names (sanitizeKeys [(ascii "a!", ascii "3"), (ascii "a_", ascii "1")] pre
        ⟨[], []⟩).ls →
      name ++ hashSuffix k ∉ names (sanitizeKeys [(ascii "a!", ascii "3"), (ascii "a_", ascii "1")]
        pre ⟨[], []⟩).ls :=
  ⟨by decide,
   (sanitizeLabelSet_names_nodup_iff [(ascii "a!", ascii "3"), (ascii "a_", ascii "1")]).1
     (by decide)⟩

/-- C3: on a map all of whose names are valid, every name sanitizes to itself without error,
and `sanitizeLabelSet` returns exactly the entries of the map, sorted by name, names and values
unchanged and no suffix appended. -/
theorem sanitizeLabelSet_valid_identity (lbls : LabelSet) (hnd : lbls.keys.Nodup)
    (hv : ∀ k ∈ lbls.keys, isValidLabelName k = true) :
    (∀ k ∈ lbls.keys, sanitizeLabelName k = .ok k) ∧
    sanitizeLabelSet lbls = (sortedKeys lbls).map (fun k => ⟨k, lbls.get k⟩) ∧
    ((sanitizeLabelSet lbls).map (fun l => (l.Name, l.Value))).Perm lbls ∧
    (names (sanitizeLabelSet lbls)).Sorted (· ≤ ·) := by
  have hperm := sortedKeys_perm lbls
  have hout : sanitizeLabelSet lbls = (sortedKeys lbls).map (fun k => ⟨k, lbls.get k⟩) := by
    rw [sanitizeLabelSet, sanitizeKeys_valid lbls (sortedKeys lbls) _
      (fun k hk => hv k (hperm.mem_iff.1 hk)) (hperm.nodup_iff.2 hnd) (by simp)]
    simp
  refine ⟨fun k hk => sanitizeLabelName_of_valid k (hv k hk), hout, ?_, ?_⟩
  · rw [hout, List.map_map]
    refine (hperm.map _).trans ?_
    have : List.map ((fun l : Label => (l.Name, l.Value)) ∘ fun k => ⟨k, lbls.get k⟩)
        lbls.keys = lbls := by
      rw [LabelSet.keys, List.map_map]
      conv_rhs => rw [← List.map_id lbls]
      refine List.map_congr_left ?_
      rintro ⟨k, v⟩ hp
      simp [get_of_mem lbls hnd k v hp]
    rw [this]
  · rw [hout, names, List.map_map]
    have : (Label.Name ∘ fun k => (⟨k, lbls.get k⟩ : Label)) = id := rfl
    rw [this, List.map_id]
    exact sortStrings_sorted _

/-- Witness for C3: the map `{"job": "api", "_env": "prod"}`. -/
theorem sanitizeLabelSet_valid_identity_witness :
    sanitizeLabelSet [(ascii "job", ascii "api"), (ascii "_env", ascii "prod")] =
      (sortedKeys [(ascii "job", ascii "api"), (ascii "_env", ascii "prod")]).map
        (fun k => ⟨k, LabelSet.get [(ascii "job", ascii "api"), (ascii "_env", ascii "prod")] k⟩) :=
  (sanitizeLabelSet_valid_identity [(ascii "job", ascii "api"), (ascii "_env", ascii "prod")]
    (by decide) (by decide)).2.1

/-- C5: the result of `sanitizeLabelSet` does not depend on the order in which the map
enumerates its entries: two enumerations of the same entries give equal lists, collision
suffixes included. -/
theorem sanitizeLabelSet_perm (l₁ l₂ : LabelSet) (hp : l₁.Perm l₂) (hnd : l₁.keys.Nodup) :
    sanitizeLabelSet l₁ = sanitizeLabelSet l₂ := by
  have hk : sortedKeys l₁ = sortedKeys l₂ := sortStrings_eq_of_perm _ _ (hp.map _)
  rw [sanitizeLabelSet, sanitizeLabelSet, hk]
  exact congrArg LoopState.ls (sanitizeKeys_congr l₁ l₂ (get_perm l₁ l₂ hp hnd) _ _)

/-- Witness for C5: the two enumerations of `{"a!": "3", "a_": "1"}`, whose names collide. -/
theorem sanitizeLabelSet_perm_witness :
    sanitizeLabelSet [(ascii "a_", ascii "1"), (ascii "a!", ascii "3")] =
      sanitizeLabelSet [(ascii "a!", ascii "3"), (ascii "a_", ascii "1")] :=
  sanitizeLabelSet_perm _ _ (List.Perm.swap _ _ _) (by decide)

/-- C6: the values of the output of `sanitizeLabelSet` are the values of the map taken in the
ascending order of the original names, skipping exactly the names that fail to sanitize: one
entry for every name that sanitizes, each with its original value. -/
theorem sanitizeLabelSet_values (lbls : LabelSet) (hnd : lbls.keys.Nodup) :
    values (sanitizeLabelSet lbls) =
      ((sortedKeys lbls).filter (fun k => (sanitizeLabelName k).isOk)).map lbls.get ∧
    (sortedKeys lbls).Sorted (· ≤ ·) ∧ (sortedKeys lbls).Perm lbls.keys ∧
    (∀ p ∈ lbls, lbls.get p.1 = p.2) := by
  refine ⟨?_, sortStrings_sorted _, sortedKeys_perm lbls, ?_⟩
  · rw [sanitizeLabelSet, sanitizeKeys_values]
    simp [values]
  · rintro ⟨k, v⟩ hp
    exact get_of_mem lbls hnd k v hp

/-- Witness for C6: in `{"b c": "2", " ": "0", "a": "1"}` the name made of a space is
dropped and the two other values come out in the order of their names. -/
theorem sanitizeLabelSet_values_witness :
    values (sanitizeLabelSet [(ascii "b c", ascii "2"), (ascii " ", ascii "0"),
      (ascii "a", ascii "1")]) = [ascii "1", ascii "2"] :=
  (sanitizeLabelSet_values [(ascii "b c", ascii "2"), (ascii " ", ascii "0"),
    (ascii "a", ascii "1")] (by decide)).1.trans (by decide)

/-- C7 (counterexample): in `{"my label!": "x", "my_label_": "y"}` the name `my label!` does
not sanitize to `my_label_`, and no output name is `my_label_` followed by an underscore and
six more characters. -/
theorem sanitizeLabelSet_example_no_collision :
    sanitizeLabelName (ascii "my label!") ≠ .ok (ascii "my_label_") ∧
    ¬ ∃ l ∈ sanitizeLabelSet [(ascii "my label!", ascii "x"), (ascii "my_label_", ascii "y")],
      ∃ hex : GoString, hex.length = 6 ∧ l.Name = ascii "my_label_" ++ 95 :: hex := by
  refine ⟨by decide, ?_⟩
  have hout : sanitizeLabelSet [(ascii "my label!", ascii "x"), (ascii "my_label_", ascii "y")] =
      [⟨ascii "mylabel_", ascii "x"⟩, ⟨ascii "my_label_", ascii "y"⟩] := by decide
  rw [hout]
  rintro ⟨l, hl, hex, hlen, hname⟩
  have hlen2 : l.Name.length = 16 := by
    rw [hname, List.length_append, List.length_cons, hlen]
    decide
  simp only [List.mem_cons, List.mem_singleton, List.not_mem_nil, or_false] at hl
  rcases hl with rfl | rfl
  · revert hlen2; decide
  · revert hlen2; decide

/-- C7 (amended): in `{"my label!": "x", "my_label_": "y"}` white space is removed, not
replaced: `my label!` sanitizes to `mylabel_` and `my_label_` is kept, so there is no
collision and `sanitizeLabelSet` returns the two entries `mylabel_ = x` and `my_label_ = y`,
in this order, without any hash suffix, whatever the enumeration order of the map. -/
theorem sanitizeLabelSet_example :
    sanitizeLabelName (ascii "my label!") = .ok (ascii "mylabel_") ∧
    sanitizeLabelName (ascii "my_label_") = .ok (ascii "my_label_") ∧
    sanitizeLabelSet [(ascii "my label!", ascii "x"), (ascii "my_label_", ascii "y")] =
      [⟨ascii "mylabel_", ascii "x"⟩, ⟨ascii "my_label_", ascii "y"⟩] ∧
    sanitizeLabelSet [(ascii "my_label_", ascii "y"), (ascii "my label!", ascii "x")] =
      [⟨ascii "mylabel_", ascii "x"⟩, ⟨ascii "my_label_", ascii "y"⟩] := by
  decide

/-! ## Claims about `buildNotifierConfig` -/

theorem buildLoop_ok {ε : Type} (parse : String → Except ε URL) (urls : List String)
    (us : List URL) (acc : List AlertmanagerConfig)
    (h : List.Forall₂ (fun a u => parse a = .ok u) urls us) :
    buildLoop parse urls acc = .ok (acc ++ us.map amConfigOf) := by
  induction h generalizing acc with
  | nil => simp [buildLoop]
  | cons hau _ ih => simp [buildLoop, hau, ih]

theorem buildLoop_error {ε : Type} (parse : String → Except ε URL) (pre : List String)
    (a : String) (post : List String) (e : ε) (acc : List AlertmanagerConfig)
    (hpre : ∀ v ∈ pre, ∃ u, parse v = .ok u) (ha : parse a = .error e) :
    buildLoop parse (pre ++ a :: post) acc = .error e := by
  induction pre generalizing acc with
  | nil => simp [buildLoop, ha]
  | cons v t ih =>
    obtain ⟨u, hu⟩ := hpre v (List.mem_cons_self _ _)
    simp only [List.cons_append, buildLoop, hu]
    exact ih _ (fun x hx => hpre x (List.mem_cons_of_mem _ hx))

theorem exists_parsed {ε : Type} (parse : String → Except ε URL) (urls : List String)
    (h : ∀ a ∈ urls, ∃ u, parse a = .ok u) :
    ∃ us, List.Forall₂ (fun a u => parse a = .ok u) urls us := by
  induction urls with
  | nil => exact ⟨[], List.Forall₂.nil⟩
  | cons a t ih =>
    obtain ⟨u, hu⟩ := h a (List.mem_cons_self _ _)
    obtain ⟨us, hus⟩ := ih (fun x hx => h x (List.mem_cons_of_mem _ hx))
    exact ⟨u :: us, List.Forall₂.cons hu hus⟩

theorem exists_first_error {ε : Type} (parse : String → Except ε URL) (urls : List String)
    (h : ∃ a ∈ urls, ∃ e, parse a = .error e) :
    ∃ pre a post e, urls = pre ++ a :: post ∧ (∀ v ∈ pre, ∃ u, parse v = .ok u) ∧
      parse a = .error e := by
  induction urls with
  | nil => simp at h
  | cons a t ih =>
    cases ha : parse a with
    | error e => exact ⟨[], a, t, e, rfl, by simp, ha⟩
    | ok u =>
      obtain ⟨b, hb, e, he⟩ := h
      rcases List.mem_cons.1 hb with rfl | hb
      · rw [ha] at he; cases he
      · obtain ⟨pre, x, post, e0, hsplit, hpre, hx⟩ := ih ⟨b, hb, e, he⟩
        refine ⟨a :: pre, x, post, e0, by simp [hsplit], ?_, hx⟩
        intro v hv
        rcases List.mem_cons.1 hv with rfl | hv
        · exact ⟨u, ha⟩
        · exact hpre v hv

theorem forall₂_getElem? {α β : Type} (R : α → β → Prop) (xs : List α) (ys : List β)
    (h : List.Forall₂ R xs ys) (i : Nat) (x : α) (hx : xs[i]? = some x) :
    ∃ y, ys[i]? = some y ∧ R x y := by
  induction h generalizing i with
  | nil => simp at hx
  | cons hxy _ ih =>
    cases i with
    | zero =>
      simp only [List.getElem?_cons_zero, Option.some.injEq] at hx
      subst hx
      exact ⟨_, by simp, hxy⟩
    | succ j =>
      simp only [List.getElem?_cons_succ] at hx ⊢
      exact ih j hx

/-- C8: `buildNotifierConfig` is all-or-nothing over the receiver URLs. When every URL parses,
it returns no error and one receiver configuration per URL, in input order, the i-th built
from the i-th URL: its scheme, its path as path prefix, the API version `v2`, the timeout of
ten seconds, and one static discovery configuration whose single group has the URL's host as
its single target. When some URL fails to parse, it returns the error of the first such URL
and no configuration. -/
theorem buildNotifierConfig_all_or_nothing {ε : Type} (parse : String → Except ε URL)
    (cfg : AdminConfiguration) :
    ((∀ amURL ∈ cfg.Alertmanagers, ∃ u, parse amURL = .ok u) →
      ∃ c, buildNotifierConfig parse cfg = .ok c ∧
        c.AlertmanagerConfigs.length = cfg.Alertmanagers.length ∧
        ∀ (i : Nat) (amURL : String), cfg.Alertmanagers[i]? = some amURL →
          ∃ (u : URL) (am : AlertmanagerConfig),
            parse amURL = .ok u ∧ c.AlertmanagerConfigs[i]? = some am ∧
            am.Scheme = u.Scheme ∧ am.PathPrefix = u.Path ∧ am.APIVersion = "v2" ∧
            am.Timeout = 10000000000 ∧
            am.ServiceDiscoveryConfigs = [[⟨[[("__address__", u.Host)]]⟩]]) ∧
    ((∃ amURL ∈ cfg.Alertmanagers, ∃ e, parse amURL = .error e) →
      ∃ pre amURL post e, cfg.Alertmanagers = pre ++ amURL :: post ∧
        (∀ v ∈ pre, ∃ u, parse v = .ok u) ∧ parse amURL = .error e ∧
        buildNotifierConfig parse cfg = .error e) := by
  constructor
  · intro hall
    obtain ⟨us, hus⟩ := exists_parsed parse _ hall
    refine ⟨⟨us.map amConfigOf⟩, ?_, ?_, ?_⟩
    · simp [buildNotifierConfig, buildLoop_ok parse _ us [] hus]
    · simp [hus.length_eq]
    · intro i amURL hi
      obtain ⟨u, hu, hparse⟩ := forall₂_getElem? _ _ _ hus i amURL hi
      refine ⟨u, amConfigOf u, hparse, by simp [hu], rfl, rfl, rfl, rfl, rfl⟩
  · intro hex
    obtain ⟨pre, a, post, e, hsplit, hpre, ha⟩ := exists_first_error parse _ hex
    refine ⟨pre, a, post, e, hsplit, hpre, ha, ?_⟩
    simp [buildNotifierConfig, hsplit, buildLoop_error parse pre a post e [] hpre ha]

/-- Witness for C8: two URLs that parse give two configurations; a list with a URL that does
not parse gives the error and nothing else. -/
theorem buildNotifierConfig_all_or_nothing_witness :
    (∃ c, buildNotifierConfig sampleParse
        ⟨["http://am1:9093/alertmanager", "https://admin:pw@am2"]⟩ = .ok c ∧
      c.AlertmanagerConfigs.length = 2) ∧
    buildNotifierConfig sampleParse ⟨["http://am1:9093/alertmanager", "::", "https://admin:pw@am2"]⟩ =
      .error "parse error" := by
  constructor
  · obtain ⟨c, hc, hlen, _⟩ := (buildNotifierConfig_all_or_nothing sampleParse
      ⟨["http://am1:9093/alertmanager", "https://admin:pw@am2"]⟩).1 (by
        intro amURL h
        simp only [List.mem_cons, List.mem_singleton, List.not_mem_nil, or_false] at h
        rcases h with rfl | rfl
        · exact ⟨_, rfl⟩
        · exact ⟨_, rfl⟩)
    exact ⟨c, hc, hlen⟩
  · decide

end Sender
